import Mathlib

/-!
Shallow embedding of the procedural SFX generator `tools/generate_audio.py`
(Mimi vs Math).  Python floats are idealised as exact rationals (ℚ) where the
computation is algebraic, and as real numbers (ℝ) where transcendental
functions (sin, exp, powers, π) are involved.  Fallible numpy calls
(negative array lengths, division by zero) are modelled with `Except`.
-/

namespace MimiAudio

/-- Sample rate: the config constant `SR = 44100`. -/
def SR : ℕ := 44100

/-- Master output ceiling: the config constant `VOLUME = 0.82`. -/
def VOLUME : ℚ := 0.82

/-- Python `int()` applied to a real-valued quantity: truncation toward zero. -/
def pyInt (q : ℚ) : ℤ := if 0 ≤ q then ⌊q⌋ else -⌊-q⌋

/-- Sample count for a duration: `_n(dur) = int(SR * dur)` in the source. -/
def _n (dur : ℚ) : ℤ := pyInt (SR * dur)

/-- Model of `np.full(n, v)`: numpy raises `ValueError` on a negative length. -/
noncomputable def npFull (n : ℤ) (v : ℝ) : Except String (List ℝ) :=
  if n < 0 then Except.error "negative dimensions are not allowed"
  else Except.ok (List.replicate n.toNat v)

/-- Model of `np.cumsum`: running (inclusive) prefix sums. -/
noncomputable def cumsum (l : List ℝ) : List ℝ := (l.scanl (· + ·) 0).tail

/-- Source `_phase`: integrate an instantaneous-frequency array into phase,
`np.cumsum(freq_array) / SR * 2 * np.pi`. -/
noncomputable def _phase (freq_array : List ℝ) : List ℝ :=
  (cumsum freq_array).map fun c => c / SR * (2 * Real.pi)

/-- Source `_const_phase`: `_phase(np.full(_n(dur), freq))`. -/
noncomputable def _const_phase (freq : ℝ) (dur : ℚ) : Except String (List ℝ) :=
  (npFull (_n dur) freq).map _phase

/-- Source `sine`: `np.sin(_const_phase(freq, dur))`. -/
noncomputable def sine (freq : ℝ) (dur : ℚ) : Except String (List ℝ) :=
  (_const_phase freq dur).map (List.map Real.sin)

/-- Source `_bl_square`: band-limited square via odd-harmonic Fourier series;
the loop `for k in range(1, harmonics + 1, 2)` visits `k = 2*j + 1` for
`j < (harmonics + 1) / 2`, and the result is scaled by `4 / pi`. -/
noncomputable def _bl_square (phase : List ℝ) (harmonics : ℕ) : List ℝ :=
  phase.map fun p =>
    (∑ j in Finset.range ((harmonics + 1) / 2),
      Real.sin ((2 * (j : ℝ) + 1) * p) / (2 * (j : ℝ) + 1)) * (4 / Real.pi)

/-- Source `_bl_sawtooth`: the loop `for k in range(1, harmonics + 1)` visits
`k = j + 1` for `j < harmonics`, with alternating signs, scaled by `2 / pi`. -/
noncomputable def _bl_sawtooth (phase : List ℝ) (harmonics : ℕ) : List ℝ :=
  phase.map fun p =>
    (∑ j in Finset.range harmonics,
      (-1 : ℝ) ^ (j + 2) * Real.sin (((j : ℝ) + 1) * p) / ((j : ℝ) + 1)) * (2 / Real.pi)

/-- Source `square`: `_bl_square(_const_phase(freq, dur))` with the default 24 harmonics. -/
noncomputable def square (freq : ℝ) (dur : ℚ) : Except String (List ℝ) :=
  (_const_phase freq dur).map fun ph => _bl_square ph 24

/-- Source `soft_square`: `_bl_square(..., harmonics=8)`. -/
noncomputable def soft_square (freq : ℝ) (dur : ℚ) : Except String (List ℝ) :=
  (_const_phase freq dur).map fun ph => _bl_square ph 8

/-- Source `sawtooth`: `_bl_sawtooth(_const_phase(freq, dur))` with the default 20 harmonics. -/
noncomputable def sawtooth (freq : ℝ) (dur : ℚ) : Except String (List ℝ) :=
  (_const_phase freq dur).map fun ph => _bl_sawtooth ph 20

/-- Source `triangle`: `2 * abs(2 * (ph / (2 pi) % 1) - 1) - 1`; the Python `% 1`
on a float is the fractional part `Int.fract` (result in `[0, 1)` for either sign). -/
noncomputable def triangle (freq : ℝ) (dur : ℚ) : Except String (List ℝ) :=
  (_const_phase freq dur).map (List.map fun p =>
    2 * |2 * Int.fract (p / (2 * Real.pi)) - 1| - 1)

/-- Source `noise_white`: `rng.uniform(-1, 1, _n(dur))`.  The shared seeded
generator is modelled as the stream `u` of its successive draws; numpy raises
`ValueError` on a negative size. -/
def noise_white (u : ℕ → ℚ) (dur : ℚ) : Except String (List ℚ) :=
  if _n dur < 0 then Except.error "negative dimensions are not allowed"
  else Except.ok (List.ofFn fun i : Fin (_n dur).toNat => u i)

/-- The per-sample loop of `noise_pink`: Paul Kellet's 4-pole recursive
shaping filter with states `b0..b3`. -/
def pinkGo : List ℚ → ℚ → ℚ → ℚ → ℚ → List ℚ
  | [], _, _, _, _ => []
  | x :: w, b0, b1, b2, b3 =>
    let b0' := 0.99886 * b0 + x * 0.0555179
    let b1' := 0.99332 * b1 + x * 0.0750759
    let b2' := 0.96900 * b2 + x * 0.1538520
    let b3' := 0.86650 * b3 + x * 0.3104856
    ((b0' + b1' + b2' + b3' + x * 0.5329522) * 0.11) :: pinkGo w b0' b1' b2' b3'

/-- Source `noise_pink`: white noise passed through the recursive pink filter
with all four states starting at 0. -/
def noise_pink (u : ℕ → ℚ) (dur : ℚ) : Except String (List ℚ) :=
  (noise_white u dur).map fun w => pinkGo w 0 0 0 0

/-- Source `silence`: `np.zeros(_n(dur))`. -/
def silence (dur : ℚ) : Except String (List ℚ) :=
  if _n dur < 0 then Except.error "negative dimensions are not allowed"
  else Except.ok (List.replicate (_n dur).toNat 0)

/-- Model of `np.linspace(start, stop, num, endpoint=False)`: `num` evenly
spaced values `start + (stop - start) * i / num`. -/
noncomputable def linspaceNE (start stop : ℝ) (num : ℕ) : List ℝ :=
  (List.range num).map fun i : ℕ => start + (stop - start) * (i : ℝ) / num

/-- Source `fm_tone`: phase-modulation synthesis; the modulation envelope is
`exp(-t * (1 / (dur * mod_decay + 1e-9)))` and the output is
`sin(2 pi carrier t + sin(2 pi fm_hz t) * mod_depth * mod_env)`.
`np.linspace` rejects a negative sample count. -/
noncomputable def fm_tone (carrier_hz : ℝ) (dur : ℚ)
    ( mod_ratio mod_depth mod_decay : ℝ) : Except String (List ℝ) :=
  if _n dur < 0 then Except.error "Number of samples must be non-negative"
  else
    let t := linspaceNE 0 (dur : ℝ) (_n dur).toNat
    Except.ok (t.map fun ti =>
      let mod_env := Real.exp (-ti * (1 / ((dur : ℝ) * mod_decay + 1e-9)))
      let fm_hz := carrier_hz * mod_ratio
      let m := Real.sin (2 * Real.pi * fm_hz * ti) * mod_depth * mod_env
      Real.sin (2 * Real.pi * carrier_hz * ti + m))

/-- Model of `np.linspace(start, stop, num)` with the default `endpoint=True`:
for `num >= 2` the step is `(stop - start) / (num - 1)`; `num = 1` gives
`[start]` and `num = 0` the empty array. -/
noncomputable def linspace (start stop : ℝ) (num : ℕ) : List ℝ :=
  if num ≤ 1 then List.replicate num start
  else (List.range num).map fun i : ℕ => start + (stop - start) * (i : ℝ) / ((num - 1 : ℕ) : ℝ)

/-- The attack length `a = min(int(attack * SR), n)` of `adsr`; the source is
only ever called with non-negative stage times, for which Python `int`
truncation agrees with `toNat` of `pyInt`. -/
def aLen (n : ℕ) (attack : ℚ) : ℕ := min (pyInt (attack * SR)).toNat n

/-- The decay length `d = min(int(decay * SR), n - a)` of `adsr`. -/
def dLen (n a : ℕ) (decay : ℚ) : ℕ := min (pyInt (decay * SR)).toNat (n - a)

/-- The release length `r = min(int(release * SR), n)` of `adsr`. -/
def rLen (n : ℕ) (release : ℚ) : ℕ := min (pyInt (release * SR)).toNat n

/-- The sustain start `s_start = a + d` of `adsr`. -/
def sStart (n : ℕ) (attack decay : ℚ) : ℕ :=
  aLen n attack + dLen n (aLen n attack) decay

/-- The sustain end `s_end = max(n - r, s_start)` of `adsr`. -/
def sEnd (n : ℕ) (attack decay release : ℚ) : ℕ :=
  max (n - rLen n release) (sStart n attack decay)

/-- The release sample count `rem = min(r, n - s_end)` of `adsr`. -/
def remLen (n : ℕ) (attack decay release : ℚ) : ℕ :=
  min (rLen n release) (n - sEnd n attack decay release)

/-- The envelope array assembled by `adsr`: attack ramp `linspace(0,1,a)**0.5`,
decay `linspace(1,sustain,d)**1.4`, flat sustain, release
`linspace(sustain,0,rem)**1.6`, occupying `[0,a)`, `[a,a+d)`,
`[s_start,s_end)` and `[s_end,s_end+rem)` of the length-`n` array `env`. -/
noncomputable def adsrEnv (n : ℕ) (attack decay : ℚ) (sustain : ℝ) (release : ℚ) :
    List ℝ :=
  ((linspace 0 1 (aLen n attack)).map fun v => v ^ (0.5 : ℝ)) ++
  ((linspace 1 sustain (dLen n (aLen n attack) decay)).map fun v => v ^ (1.4 : ℝ)) ++
  List.replicate (sEnd n attack decay release - sStart n attack decay) sustain ++
  ((linspace sustain 0 (remLen n attack decay release)).map fun v => v ^ (1.6 : ℝ))

/-- Source `adsr`: the signal multiplied elementwise by the envelope. -/
noncomputable def adsr (sig : List ℝ) (attack decay : ℚ) (sustain : ℝ) (release : ℚ) :
    List ℝ :=
  List.zipWith (· * ·) sig (adsrEnv sig.length attack decay sustain release)

/-- The per-sample recurrence of `lowpass_fast`: `y += alpha * (x - y)`. -/
noncomputable def lowGo (alpha : ℝ) : List ℚ → ℝ → List ℝ
  | [], _ => []
  | x :: rest, y =>
    let y' := y + alpha * ((x : ℝ) - y)
    y' :: lowGo alpha rest y'

/-- Source `lowpass_fast`: first-order IIR lowpass.  `rc = 1/(2 pi cutoff)` is a
Python float division, which raises `ZeroDivisionError` when `cutoff = 0`;
no other cutoff check is performed. -/
noncomputable def lowpass_fast (sig : List ℚ) (cutoff_hz : ℚ) : Except String (List ℝ) :=
  if cutoff_hz = 0 then Except.error "float division by zero"
  else
    let rc : ℝ := 1 / (2 * Real.pi * (cutoff_hz : ℝ))
    let alpha : ℝ := (1 / SR) / (rc + 1 / SR)
    Except.ok (lowGo alpha sig 0)

/-- The per-sample loop of one comb filter in `reverb`: read the circular
buffer at `pos`, update the one-pole damping state, write back
`sig[i] + filt * fb`, advance `pos` modulo the delay. -/
def combGo (damping fb : ℚ) (delay : ℕ) : List ℚ → List ℚ → ℚ → ℕ → List ℚ
  | [], _, _, _ => []
  | x :: rest, buf, filt, pos =>
    let input_s := buf.getD pos 0
    let filt' := input_s * (1 - damping) + filt * damping
    let buf' := buf.set pos (x + filt' * fb)
    input_s :: combGo damping fb delay rest buf' filt' ((pos + 1) % delay)

/-- The per-sample loop of one allpass filter in `reverb`: output
`buf[pos] - 0.5 * input`, write back `input + 0.5 * buf[pos]`. -/
def allpassGo (delay : ℕ) : List ℚ → List ℚ → ℕ → List ℚ
  | [], _, _ => []
  | x :: rest, buf, pos =>
    let bv := buf.getD pos 0
    let buf' := buf.set pos (x + bv * 0.5)
    (bv - x * 0.5) :: allpassGo delay rest buf' ((pos + 1) % delay)

/-- Source `reverb`: four parallel combs (delays scaled by `0.9 + 0.2 * room`,
feedback `0.55 + 0.40 * room`, one-pole damping), summed, passed through two
cascaded allpasses, divided by `len(comb_delays) + 1e-9`, and mixed with the
dry signal as `sig * (1 - wet) + out * wet`. -/
def reverb (sig : List ℚ) (room wet damping : ℚ) : List ℚ :=
  let n := sig.length
  let comb_delays : List ℕ :=
    [(pyInt (0.0297 * SR * (0.9 + 0.2 * room))).toNat,
     (pyInt (0.0371 * SR * (0.9 + 0.2 * room))).toNat,
     (pyInt (0.0411 * SR * (0.9 + 0.2 * room))).toNat,
     (pyInt (0.0437 * SR * (0.9 + 0.2 * room))).toNat]
  let fb := 0.55 + 0.40 * room
  let combOut := comb_delays.foldl
    (fun out delay =>
      List.zipWith (· + ·) out (combGo damping fb delay sig (List.replicate delay 0) 0 0))
    (List.replicate n (0 : ℚ))
  let ap_delays : List ℕ := [(pyInt (0.0051 * SR)).toNat, (pyInt (0.0127 * SR)).toNat]
  let apOut := ap_delays.foldl
    (fun out delay => allpassGo delay out (List.replicate delay 0) 0)
    combOut
  let scaled := apOut.map fun v => v / (4 + 1e-9)
  List.zipWith (fun s o => s * (1 - wet) + o * wet) sig scaled

/-- Model of `np.clip(x, lo, hi)`. -/
def npClip (x lo hi : ℚ) : ℚ := min (max x lo) hi

/-- Peak absolute amplitude `np.max(np.abs(samples))`, as the fold it is over a
non-empty array (the fold starts at 0, which agrees with numpy's max on any
non-empty array of absolute values). -/
def maxAbs {α : Type} [LinearOrderedRing α] (l : List α) : α :=
  l.foldr (fun x m => max |x| m) 0

/-- One sample of the quantisation step of `save`:
`np.clip(x * 32767, -32767, 32767).astype(np.int16)` (numpy's float-to-int
conversion truncates toward zero). -/
def quant16 (x : ℚ) : ℤ := pyInt (npClip (x * 32767) (-32767) 32767)

/-- The numeric stage of `save`: peak-normalise to `VOLUME` when the peak is
positive (skip scaling entirely when the peak is 0), then quantise each
sample to a signed 16-bit value. -/
def save_pcm (samples : List ℚ) : List ℤ :=
  let peak := maxAbs samples
  let scaled := if 0 < peak then samples.map fun x => x / peak * VOLUME else samples
  scaled.map quant16

/-- The `__main__` batch loop: `for filename, fn in SOUNDS.items(): save(filename,
fn())` with no exception handling, so a failing write raises out of the loop.
`writeOk` tells whether writing a given file succeeds; the result is the list
of files written before any failure, and the file whose write raised, if any. -/
def runBatch : List String → (String → Bool) → List String × Option String
  | [], _ => ([], none)
  | f :: rest, writeOk =>
    if writeOk f then
      let r := runBatch rest writeOk
      (f :: r.1, r.2)
    else ([], some f)

/-- Length of a buffer-producing call: `none` when the call raises. -/
def exLen {α : Type} (e : Except String (List α)) : Option ℕ :=
  e.toOption.map List.length

theorem length_cumsum (l : List ℝ) : (cumsum l).length = l.length := by
  simp [cumsum, List.length_scanl]

theorem length__phase (l : List ℝ) : (_phase l).length = l.length := by
  simp [_phase, length_cumsum]

theorem pinkGo_length : ∀ (w : List ℚ) (b0 b1 b2 b3 : ℚ),
    (pinkGo w b0 b1 b2 b3).length = w.length
  | [], _, _, _, _ => rfl
  | x :: w, b0, b1, b2, b3 => by
    simp [pinkGo, pinkGo_length w]

theorem pyInt_of_nonneg {q : ℚ} (h : 0 ≤ q) : pyInt q = ⌊q⌋ := by
  simp [pyInt, h]

theorem _n_of_nonneg {dur : ℚ} (h : 0 ≤ dur) : _n dur = ⌊(44100 : ℚ) * dur⌋ := by
  have hq : 0 ≤ (SR : ℚ) * dur := by
    have : (0 : ℚ) ≤ (SR : ℚ) := by norm_num [SR]
    exact mul_nonneg this h
  rw [_n, pyInt_of_nonneg hq]
  norm_num [SR]

theorem _n_nonneg {dur : ℚ} (h : 0 ≤ dur) : 0 ≤ _n dur := by
  rw [_n_of_nonneg h]
  have : 0 ≤ (44100 : ℚ) * dur := by positivity
  exact Int.floor_nonneg.2 this

/-- C2 (amended), the shared characterisation: for a non-negative duration every
buffer-producing primitive returns a buffer of exactly `int(44100 * dur)`
(truncated, i.e. floored) samples. -/
theorem all_primitive_lengths (f : ℝ) (u : ℕ → ℚ) (dur : ℚ) (h : 0 ≤ dur) :
    exLen (sine f dur) = some (_n dur).toNat ∧
    exLen (square f dur) = some (_n dur).toNat ∧
    exLen (soft_square f dur) = some (_n dur).toNat ∧
    exLen (sawtooth f dur) = some (_n dur).toNat ∧
    exLen (triangle f dur) = some (_n dur).toNat ∧
    exLen (noise_white u dur) = some (_n dur).toNat ∧
    exLen (noise_pink u dur) = some (_n dur).toNat ∧
    exLen (silence dur) = some (_n dur).toNat ∧
    _n dur = ⌊(44100 : ℚ) * dur⌋ := by
  have hn : ¬ _n dur < 0 := not_lt.2 (_n_nonneg h)
  refine ⟨?_, ?_, ?_, ?_, ?_, ?_, ?_, ?_, _n_of_nonneg h⟩ <;>
    simp [exLen, sine, square, soft_square, sawtooth, triangle, noise_white,
      noise_pink, silence, _const_phase, npFull, hn, Except.map, Except.toOption,
      length__phase, _bl_square, _bl_sawtooth, pinkGo_length]

/-- C2 theorem (amended): for every finite non-negative duration `d`, every
buffer-producing primitive (sine, square, soft_square, sawtooth, triangle,
noise_white, noise_pink, silence) returns a buffer of exactly
`int(44100 * d)` (truncation, i.e. the floor) samples. -/
theorem C2_primitive_lengths (f : ℝ) (u : ℕ → ℚ) (dur : ℚ) (h : 0 ≤ dur) :
    exLen (sine f dur) = some (_n dur).toNat ∧
    exLen (square f dur) = some (_n dur).toNat ∧
    exLen (soft_square f dur) = some (_n dur).toNat ∧
    exLen (sawtooth f dur) = some (_n dur).toNat ∧
    exLen (triangle f dur) = some (_n dur).toNat ∧
    exLen (noise_white u dur) = some (_n dur).toNat ∧
    exLen (noise_pink u dur) = some (_n dur).toNat ∧
    exLen (silence dur) = some (_n dur).toNat ∧
    _n dur = ⌊(44100 : ℚ) * dur⌋ :=
  all_primitive_lengths f u dur h

/-- C2 witness: the characterisation applied at `f = 440`, a constant noise
stream, and `dur = 1/44100`. -/
theorem C2_primitive_lengths_witness :
    exLen (sine 440 (1 / 44100)) = some (_n (1 / 44100)).toNat ∧
    exLen (square 440 (1 / 44100)) = some (_n (1 / 44100)).toNat ∧
    exLen (soft_square 440 (1 / 44100)) = some (_n (1 / 44100)).toNat ∧
    exLen (sawtooth 440 (1 / 44100)) = some (_n (1 / 44100)).toNat ∧
    exLen (triangle 440 (1 / 44100)) = some (_n (1 / 44100)).toNat ∧
    exLen (noise_white (fun _ => 0) (1 / 44100)) = some (_n (1 / 44100)).toNat ∧
    exLen (noise_pink (fun _ => 0) (1 / 44100)) = some (_n (1 / 44100)).toNat ∧
    exLen (silence (1 / 44100)) = some (_n (1 / 44100)).toNat ∧
    _n (1 / 44100) = ⌊(44100 : ℚ) * (1 / 44100)⌋ :=
  C2_primitive_lengths 440 (fun _ => 0) (1 / 44100) (by norm_num)

/-- C2 counterexample: at duration `19/441000` seconds, `44100 * d = 1.9`, the
produced buffer has `int(1.9) = 1` sample, while `round(1.9) = 2`: the sample
count is a truncation, not a rounding, of `duration * sampleRate`. -/
theorem C2_silence_length_not_round :
    exLen (silence (19 / 441000)) = some 1 ∧
    round ((44100 : ℚ) * (19 / 441000)) = 2 := by
  have h1 : _n (19 / 441000) = 1 := by
    rw [_n_of_nonneg (by norm_num)]
    norm_num
  constructor
  · simp [exLen, silence, h1, Except.toOption]
  · norm_num [round_eq]

theorem scanl_add_replicate (f : ℝ) (m : ℕ) (c : ℝ) :
    List.scanl (· + ·) c (List.replicate m f) =
      (List.range (m + 1)).map fun i : ℕ => c + (i : ℝ) * f := by
  induction m generalizing c with
  | zero => norm_num [List.range_succ]
  | succ m ih =>
    rw [List.replicate_succ, List.scanl_cons, ih (c + f)]
    conv_rhs => rw [List.range_succ_eq_map]
    simp only [List.map_cons, List.map_map, List.singleton_append, Nat.cast_zero,
      zero_mul, add_zero, List.cons.injEq, true_and]
    apply List.map_congr_left
    intro i _
    simp only [Function.comp_apply, Nat.succ_eq_add_one]
    push_cast
    ring

/-- The inclusive running sum of a constant array: `cumsum(full(m, f))[i] = (i+1) * f`. -/
theorem cumsum_replicate (f : ℝ) (m : ℕ) :
    cumsum (List.replicate m f) =
      (List.range m).map fun i : ℕ => ((i : ℝ) + 1) * f := by
  rw [cumsum, scanl_add_replicate]
  conv_lhs => rw [List.range_succ_eq_map]
  simp only [List.map_cons, List.tail_cons, List.map_map, Nat.cast_zero]
  apply List.map_congr_left
  intro i _
  simp only [Function.comp_apply, Nat.succ_eq_add_one]
  push_cast
  ring

/-- Closed form of `sine` for a non-negative duration: because `np.cumsum` is an
inclusive prefix sum, sample `i` carries phase `2 pi f (i+1) / SR`. -/
theorem sine_values (f : ℝ) (dur : ℚ) (h : 0 ≤ _n dur) :
    sine f dur = Except.ok
      ((List.range (_n dur).toNat).map fun i : ℕ =>
        Real.sin (2 * Real.pi * f * ((i : ℝ) + 1) / SR)) := by
  have hn : ¬ _n dur < 0 := not_lt.2 h
  simp only [sine, _const_phase, npFull, if_neg hn, Except.map, _phase,
    cumsum_replicate, List.map_map]
  congr 1
  apply List.map_congr_left
  intro i _
  simp only [Function.comp_apply]
  congr 1
  have hSR : ((SR : ℕ) : ℝ) ≠ 0 := by norm_num [SR]
  field_simp
  ring

/-- C1 theorem (amended): for a constant frequency `f` and a duration with a
non-negative sample count, `sine(f, d)` at index `i` equals
`sin(2 pi f (i+1) / sr)`: the phase accumulator is an inclusive running sum
(`phase[i] = (sum of freq[j] for j <= i) / sampleRate * 2 pi`), which for
sample `i` includes the contribution of index `i` itself, so the phase is
`(i+1)` steps, not `i`. -/
theorem C1_sine_samples (f : ℝ) (dur : ℚ) (h : 0 ≤ _n dur) :
    sine f dur = Except.ok
      ((List.range (_n dur).toNat).map fun i : ℕ =>
        Real.sin (2 * Real.pi * f * ((i : ℝ) + 1) / SR)) :=
  sine_values f dur h

/-- C1 witness: the closed form applied at `f = 440`, `dur = 1/44100`. -/
theorem C1_sine_samples_witness :
    sine 440 (1 / 44100) = Except.ok
      ((List.range (_n (1 / 44100)).toNat).map fun i : ℕ =>
        Real.sin (2 * Real.pi * 440 * ((i : ℝ) + 1) / SR)) :=
  C1_sine_samples 440 (1 / 44100)
    (by rw [_n_of_nonneg (by norm_num)]; norm_num)

/-- C1 counterexample: at `f = 11025` (a quarter of the sample rate) and a
one-sample duration, the buffer is `[sin(pi/2)] = [1]`, not
`[sin(2 pi f 0 / sr)] = [0]` as the claim's formula `sin(2 pi f i / sr)`
demands at `i = 0`. -/
theorem C1_sine_phase_cex :
    sine 11025 (1 / 44100) ≠
      Except.ok [Real.sin (2 * Real.pi * 11025 * 0 / SR)] := by
  have h0 : _n (1 / 44100) = 1 := by
    rw [_n_of_nonneg (by norm_num)]
    norm_num
  have h : sine 11025 (1 / 44100) = Except.ok [(1 : ℝ)] := by
    rw [sine_values 11025 (1 / 44100) (by rw [h0]; norm_num), h0]
    norm_num [List.range_succ]
    have harg : (2 * Real.pi * 11025 / ((SR : ℕ) : ℝ)) = Real.pi / 2 := by
      norm_num [SR]
      ring
    rw [harg, Real.sin_pi_div_two]
  rw [h]
  have h2 : Real.sin (2 * Real.pi * 11025 * 0 / SR) = 0 := by norm_num
  rw [h2]
  simp

theorem combGo_length (damping fb : ℚ) (delay : ℕ) :
    ∀ (sig buf : List ℚ) (filt : ℚ) (pos : ℕ),
      (combGo damping fb delay sig buf filt pos).length = sig.length
  | [], _, _, _ => rfl
  | x :: rest, buf, filt, pos => by
    simp [combGo, combGo_length damping fb delay rest]

theorem allpassGo_length (delay : ℕ) :
    ∀ (sig buf : List ℚ) (pos : ℕ),
      (allpassGo delay sig buf pos).length = sig.length
  | [], _, _ => rfl
  | x :: rest, buf, pos => by
    simp [allpassGo, allpassGo_length delay rest]

theorem comb_foldl_length (sig : List ℚ) (damping fb : ℚ) :
    ∀ (ds : List ℕ) (out : List ℚ), out.length = sig.length →
      (ds.foldl (fun out delay =>
        List.zipWith (· + ·) out
          (combGo damping fb delay sig (List.replicate delay 0) 0 0)) out).length
        = sig.length
  | [], out, h => h
  | d :: ds, out, h => by
    apply comb_foldl_length sig damping fb ds
    simp [List.length_zipWith, h, combGo_length]

theorem ap_foldl_length :
    ∀ (ds : List ℕ) (out : List ℚ),
      (ds.foldl (fun out delay =>
        allpassGo delay out (List.replicate delay 0) 0) out).length = out.length
  | [], out => rfl
  | d :: ds, out => by
    rw [List.foldl_cons, ap_foldl_length ds, allpassGo_length]

theorem zipWith_dry (g : ℚ → ℚ → ℚ) (hg : ∀ s o, g s o = s) :
    ∀ (sig out : List ℚ), sig.length ≤ out.length →
      List.zipWith g sig out = sig
  | [], _, _ => rfl
  | s :: sig, [], h => by simp at h
  | s :: sig, o :: out, h => by
    simp only [List.zipWith_cons_cons, hg s o, List.cons.injEq, true_and]
    exact zipWith_dry g hg sig out (by simpa using h)

/-- C3 theorem: for every input buffer and every `room`, `damping` in `[0, 1]`,
`reverb(x, room, wet=0, damping)` equals `x` exactly: the final mix
`sig * (1 - wet) + out * wet` collapses to the dry signal. -/
theorem C3_reverb_wet_zero (sig : List ℚ) (room damping : ℚ)
    (h1 : 0 ≤ room) (h2 : room ≤ 1) (h3 : 0 ≤ damping) (h4 : damping ≤ 1) :
    reverb sig room 0 damping = sig := by
  rw [reverb]
  apply zipWith_dry _ (fun s o => by ring)
  rw [List.length_map, ap_foldl_length]
  exact le_of_eq (comb_foldl_length sig damping _ _ _ (by simp)).symm

/-- C3 witness: the identity applied to the concrete two-sample buffer `[1, 0]`
with `room = 0.35`, `damping = 0.45` (the defaults of the source). -/
theorem C3_reverb_wet_zero_witness :
    reverb [1, 0] (7 / 20) 0 (9 / 20) = [1, 0] :=
  C3_reverb_wet_zero [1, 0] (7 / 20) (9 / 20)
    (by norm_num) (by norm_num) (by norm_num) (by norm_num)

theorem noise_white_congr (u₁ u₂ : ℕ → ℚ) (dur : ℚ)
    (h : ∀ i < (_n dur).toNat, u₁ i = u₂ i) :
    noise_white u₁ dur = noise_white u₂ dur := by
  unfold noise_white
  split
  · rfl
  · exact congrArg _ (congrArg List.ofFn (funext fun i => h i i.isLt))

/-- C4 theorem: `noise_pink(d)` is a deterministic function of the seeded
pseudorandom stream: two runs whose streams agree on the first `_n(d)` draws
(in particular, two runs from the same fixed seed) produce bit-identical
output buffers. -/
theorem C4_noise_pink_deterministic (u₁ u₂ : ℕ → ℚ) (dur : ℚ)
    (h : ∀ i < (_n dur).toNat, u₁ i = u₂ i) :
    noise_pink u₁ dur = noise_pink u₂ dur := by
  unfold noise_pink
  rw [noise_white_congr u₁ u₂ dur h]

/-- C4 witness: two concrete streams that agree on their first two draws give
identical pink-noise buffers for a two-sample duration. -/
theorem C4_noise_pink_deterministic_witness :
    noise_pink (fun _ => 1 / 2) (2 / 44100) =
      noise_pink (fun i => if i < 2 then 1 / 2 else 7) (2 / 44100) :=
  C4_noise_pink_deterministic _ _ _ (by
    intro i hi
    have h2 : (_n (2 / 44100)).toNat = 2 := by
      rw [_n_of_nonneg (by norm_num)]
      norm_num
      rfl
    rw [h2] at hi
    rw [if_pos hi])

theorem linspace_length (start stop : ℝ) (num : ℕ) :
    (linspace start stop num).length = num := by
  unfold linspace
  split <;> simp

/-- The four envelope segments of `adsr` tile the length-`n` array exactly:
the stage lengths are clamped so no slice is negative and every element of
`env` is assigned. -/
theorem adsrEnv_length (n : ℕ) (attack decay : ℚ) (sustain : ℝ) (release : ℚ) :
    (adsrEnv n attack decay sustain release).length = n := by
  simp only [adsrEnv, List.length_append, List.length_map, linspace_length,
    List.length_replicate, aLen, dLen, rLen, sStart, sEnd, remLen]
  generalize (pyInt (attack * (SR : ℚ))).toNat = x
  generalize (pyInt (decay * (SR : ℚ))).toNat = y
  generalize (pyInt (release * (SR : ℚ))).toNat = z
  omega

/-- C8 theorem: for every input buffer and non-negative stage parameters —
including `attack + decay >= N` — the `adsr` envelope assembly performs no
out-of-bounds slice, its four clamped stages assign every element of the
length-`N` envelope exactly once, and the output buffer has length exactly
`N`. -/
theorem C8_adsr_safe (sig : List ℝ) (attack decay : ℚ) (sustain : ℝ) (release : ℚ)
    (ha : 0 ≤ attack) (hd : 0 ≤ decay) (hr : 0 ≤ release) :
    (adsrEnv sig.length attack decay sustain release).length = sig.length ∧
    (adsr sig attack decay sustain release).length = sig.length := by
  refine ⟨adsrEnv_length _ _ _ _ _, ?_⟩
  rw [adsr, List.length_zipWith, adsrEnv_length, min_self]

/-- C8 witness: a three-sample buffer with one-second attack, decay and
release (`attack + decay` far exceeding `N = 3`). -/
theorem C8_adsr_safe_witness :
    (adsrEnv (List.length [(1 : ℝ), 1, 1]) 1 1 (7 / 10) 1).length =
      (List.length [(1 : ℝ), 1, 1]) ∧
    (adsr [(1 : ℝ), 1, 1] 1 1 (7 / 10) 1).length = (List.length [(1 : ℝ), 1, 1]) :=
  C8_adsr_safe [(1 : ℝ), 1, 1] 1 1 (7 / 10) 1
    (by norm_num) (by norm_num) (by norm_num)

theorem linspace_last (start stop : ℝ) (num : ℕ) (h : 2 ≤ num) :
    (linspace start stop num)[num - 1]? = some stop := by
  unfold linspace
  rw [if_neg (by omega)]
  rw [List.getElem?_map, List.getElem?_range (by omega)]
  have hnum : ((num : ℝ) - 1) ≠ 0 :=
    sub_ne_zero.mpr (by exact_mod_cast (by omega : num ≠ 1))
  simp only [Option.map_some']
  congr 1
  rw [Nat.cast_sub (by omega : 1 ≤ num), Nat.cast_one]
  field_simp

theorem linspace_first (start stop : ℝ) (num : ℕ) (h : 1 ≤ num) :
    (linspace start stop num)[0]? = some start := by
  unfold linspace
  split
  · have h1 : num = 1 := by omega
    subst h1
    rfl
  · rw [List.getElem?_map, List.getElem?_range (by omega)]
    norm_num

/-- The last sample of the decay segment of the `adsr` envelope is
`sustain ** 1.4` (the 1.4-power is applied to the already-interpolated ramp,
whose own last value is `sustain`). -/
theorem adsrEnv_decay_last (n : ℕ) (attack decay : ℚ) (sustain : ℝ) (release : ℚ)
    (hd : 2 ≤ dLen n (aLen n attack) decay) :
    (adsrEnv n attack decay sustain release)[sStart n attack decay - 1]? =
      some (sustain ^ (1.4 : ℝ)) := by
  have hss : sStart n attack decay =
      aLen n attack + dLen n (aLen n attack) decay := rfl
  unfold adsrEnv
  rw [List.getElem?_append_left (by
    simp only [List.length_append, List.length_map, linspace_length,
      List.length_replicate]
    omega)]
  rw [List.getElem?_append_left (by
    simp only [List.length_append, List.length_map, linspace_length]
    omega)]
  rw [List.getElem?_append_right (by
    simp only [List.length_map, linspace_length]
    omega)]
  simp only [List.length_map, linspace_length]
  have hidx : sStart n attack decay - 1 - aLen n attack =
      dLen n (aLen n attack) decay - 1 := by omega
  rw [hidx, List.getElem?_map, linspace_last 1 sustain _ hd]
  rfl

/-- The first sample of the release segment of the `adsr` envelope is
`sustain ** 1.6`. -/
theorem adsrEnv_release_first (n : ℕ) (attack decay : ℚ) (sustain : ℝ) (release : ℚ)
    (hrem : 1 ≤ remLen n attack decay release) :
    (adsrEnv n attack decay sustain release)[sEnd n attack decay release]? =
      some (sustain ^ (1.6 : ℝ)) := by
  have hss : sStart n attack decay =
      aLen n attack + dLen n (aLen n attack) decay := rfl
  have hse : sStart n attack decay ≤ sEnd n attack decay release :=
    le_max_right _ _
  unfold adsrEnv
  rw [List.getElem?_append_right (by
    simp only [List.length_append, List.length_map, linspace_length,
      List.length_replicate]
    omega)]
  simp only [List.length_append, List.length_map, linspace_length,
    List.length_replicate]
  have hidx : sEnd n attack decay release -
      (aLen n attack + dLen n (aLen n attack) decay +
        (sEnd n attack decay release - sStart n attack decay)) = 0 := by
    omega
  rw [hidx, List.getElem?_map, linspace_first sustain 0 _ hrem]
  rfl

/-- C5 theorem (amended): for non-degenerate stage lengths (decay at least two
samples, release at least one), the decay segment is the pointwise 1.4-power
of a linear ramp from 1 to `sustain`, so its final value is
`sustain ** 1.4`; the release segment is the pointwise 1.6-power of a ramp
from `sustain` to 0, so its initial value is `sustain ** 1.6`.  Neither
equals `sustain` in general, so both stages meet the flat sustain segment
with a jump unless `sustain` is 0 or 1. -/
theorem C5_adsr_curve_endpoints (n : ℕ) (attack decay : ℚ) (sustain : ℝ)
    (release : ℚ)
    (hd : 2 ≤ dLen n (aLen n attack) decay)
    (hrem : 1 ≤ remLen n attack decay release) :
    (adsrEnv n attack decay sustain release)[sStart n attack decay - 1]? =
      some (sustain ^ (1.4 : ℝ)) ∧
    (adsrEnv n attack decay sustain release)[sEnd n attack decay release]? =
      some (sustain ^ (1.6 : ℝ)) :=
  ⟨adsrEnv_decay_last n attack decay sustain release hd,
   adsrEnv_release_first n attack decay sustain release hrem⟩

theorem aLen_eval_ex : aLen 4 0 = 0 := by
  rw [aLen, pyInt_of_nonneg (by norm_num)]
  norm_num

theorem dLen_eval_ex : dLen 4 (aLen 4 0) (2 / 44100) = 2 := by
  rw [aLen_eval_ex, dLen, pyInt_of_nonneg (by norm_num [SR])]
  have h2 : ((2 / 44100 : ℚ) * (SR : ℚ)) = 2 := by norm_num [SR]
  rw [h2]
  rfl

theorem sStart_eval_ex : sStart 4 0 (2 / 44100) = 2 := by
  rw [sStart, dLen_eval_ex, aLen_eval_ex]

theorem rLen_eval_ex : rLen 4 (1 / 44100) = 1 := by
  rw [rLen, pyInt_of_nonneg (by norm_num [SR])]
  have h1 : ((1 / 44100 : ℚ) * (SR : ℚ)) = 1 := by norm_num [SR]
  rw [h1]
  rfl

theorem sEnd_eval_ex : sEnd 4 0 (2 / 44100) (1 / 44100) = 3 := by
  rw [sEnd, rLen_eval_ex, sStart_eval_ex]
  decide

theorem remLen_eval_ex : remLen 4 0 (2 / 44100) (1 / 44100) = 1 := by
  rw [remLen, rLen_eval_ex, sEnd_eval_ex]
  decide

/-- C5 witness: a four-sample buffer with a two-sample decay, one-sample
release and `sustain = 1/2`. -/
theorem C5_adsr_curve_endpoints_witness :
    (adsrEnv 4 0 (2 / 44100) ((1 : ℝ) / 2) (1 / 44100))[sStart 4 0 (2 / 44100) - 1]? =
      some (((1 : ℝ) / 2) ^ (1.4 : ℝ)) ∧
    (adsrEnv 4 0 (2 / 44100) ((1 : ℝ) / 2)
        (1 / 44100))[sEnd 4 0 (2 / 44100) (1 / 44100)]? =
      some (((1 : ℝ) / 2) ^ (1.6 : ℝ)) :=
  C5_adsr_curve_endpoints 4 0 (2 / 44100) ((1 : ℝ) / 2) (1 / 44100)
    (by rw [dLen_eval_ex]) (by rw [remLen_eval_ex])

/-- C5 counterexample: with `sustain = 1/2` the final decay-segment envelope
value is `(1/2) ** 1.4 < 1/2`, so it does not equal the sustain level the
flat segment holds, contradicting the claim that the decay ramp ends at
`sustain`. -/
theorem C5_adsr_decay_end_cex :
    (adsrEnv 4 0 (2 / 44100) ((1 : ℝ) / 2) (1 / 44100))[sStart 4 0 (2 / 44100) - 1]? ≠
      some ((1 : ℝ) / 2) := by
  rw [adsrEnv_decay_last 4 0 (2 / 44100) ((1 : ℝ) / 2) (1 / 44100)
    (by rw [dLen_eval_ex])]
  have hlt : ((1 : ℝ) / 2) ^ (1.4 : ℝ) < (1 : ℝ) / 2 := by
    have h := @Real.rpow_lt_rpow_of_exponent_gt ((1 : ℝ) / 2) (1.4 : ℝ) 1
      (by norm_num) (by norm_num) (by norm_num)
    rwa [Real.rpow_one] at h
  intro hcontra
  rw [Option.some.injEq] at hcontra
  linarith

theorem maxAbs_cons {α : Type} [LinearOrderedRing α] (x : α) (l : List α) :
    maxAbs (x :: l) = max |x| (maxAbs l) := rfl

theorem maxAbs_nonneg {α : Type} [LinearOrderedRing α] (l : List α) :
    0 ≤ maxAbs l := by
  induction l with
  | nil => exact le_refl 0
  | cons x l ih => exact le_trans ih (le_max_right _ _)

theorem le_maxAbs_of_mem {α : Type} [LinearOrderedRing α] {x : α} {l : List α}
    (h : x ∈ l) : |x| ≤ maxAbs l := by
  induction l with
  | nil => cases h
  | cons y l ih =>
    rcases List.mem_cons.1 h with h1 | h2
    · rw [h1, maxAbs_cons]
      exact le_max_left _ _
    · exact le_trans (ih h2) (le_max_right _ _)

theorem maxAbs_le {α : Type} [LinearOrderedRing α] {l : List α} {c : α}
    (hc : 0 ≤ c) (h : ∀ x ∈ l, |x| ≤ c) : maxAbs l ≤ c := by
  induction l with
  | nil => exact hc
  | cons y l ih =>
    rw [maxAbs_cons]
    exact max_le (h y (List.mem_cons_self y l)) (ih fun x hx => h x (List.mem_cons_of_mem y hx))

theorem exists_maxAbs {α : Type} [LinearOrderedRing α] {l : List α}
    (h : 0 < maxAbs l) : ∃ x ∈ l, |x| = maxAbs l := by
  induction l with
  | nil => exact absurd h (lt_irrefl 0)
  | cons y l ih =>
    by_cases hc : maxAbs l ≤ |y|
    · exact ⟨y, List.mem_cons_self y l, by rw [maxAbs_cons, max_eq_left hc]⟩
    · push_neg at hc
      have h2 : 0 < maxAbs l := lt_of_le_of_lt (abs_nonneg y) hc
      obtain ⟨x, hx, hxe⟩ := ih h2
      exact ⟨x, List.mem_cons_of_mem y hx, by rw [maxAbs_cons, max_eq_right hc.le, hxe]⟩

theorem maxAbs_eq_zero_mem {α : Type} [LinearOrderedRing α] {l : List α}
    (h : maxAbs l = 0) {x : α} (hx : x ∈ l) : x = 0 := by
  have h1 := le_maxAbs_of_mem hx
  rw [h] at h1
  exact abs_nonpos_iff.1 h1

theorem maxAbs_map_mul {α : Type} [LinearOrderedField α] (l : List α) (k : α)
    (hk : 0 ≤ k) : maxAbs (l.map fun x => x * k) = maxAbs l * k := by
  induction l with
  | nil => simp [maxAbs]
  | cons y l ih =>
    rw [List.map_cons, maxAbs_cons, maxAbs_cons, ih, abs_mul, abs_of_nonneg hk,
      max_mul_of_nonneg _ _ hk]

theorem save_pcm_eq (samples : List ℚ) :
    save_pcm samples =
      (if 0 < maxAbs samples then samples.map fun x => x / maxAbs samples * VOLUME
       else samples).map quant16 := rfl

theorem pyInt_abs (q : ℚ) : |pyInt q| = ⌊|q|⌋ := by
  unfold pyInt
  by_cases h : 0 ≤ q
  · rw [if_pos h, abs_of_nonneg h, abs_of_nonneg (Int.floor_nonneg.2 h)]
  · have hq : q < 0 := not_le.1 h
    rw [if_neg h, abs_of_neg hq, abs_neg, abs_of_nonneg]
    exact Int.floor_nonneg.2 (by linarith)

theorem quant16_unclipped (y : ℚ) (hy : |y| ≤ VOLUME) :
    quant16 y = pyInt (y * 32767) := by
  have hy' : |y| ≤ 82 / 100 := by
    rw [show VOLUME = 82 / 100 by norm_num [VOLUME]] at hy
    exact hy
  obtain ⟨h1, h2⟩ := abs_le.1 hy'
  unfold quant16 npClip
  rw [max_eq_left (by linarith), min_eq_left (by linarith)]

theorem quant16_abs_le (y : ℚ) (hy : |y| ≤ VOLUME) : |quant16 y| ≤ 26868 := by
  rw [quant16_unclipped y hy, pyInt_abs, abs_mul,
    abs_of_nonneg (by norm_num : (0 : ℚ) ≤ 32767)]
  have hb : |y| * 32767 ≤ 2686894 / 100 := by
    have := mul_le_mul_of_nonneg_right hy (by norm_num : (0 : ℚ) ≤ 32767)
    rw [show VOLUME = 82 / 100 by norm_num [VOLUME]] at this
    linarith
  calc ⌊|y| * 32767⌋ ≤ ⌊(2686894 / 100 : ℚ)⌋ := Int.floor_le_floor hb
    _ = 26868 := by norm_num

theorem quant16_abs_peak (y : ℚ) (hy : |y| = VOLUME) : |quant16 y| = 26868 := by
  rw [quant16_unclipped y (le_of_eq hy), pyInt_abs, abs_mul,
    abs_of_nonneg (by norm_num : (0 : ℚ) ≤ 32767), hy,
    show VOLUME = 82 / 100 by norm_num [VOLUME]]
  norm_num

/-- C7 theorem: the exporter's numeric stage.  An all-zero buffer skips
scaling and quantises to all zeros (no division occurs); a buffer with
positive peak is scaled so its peak is exactly `VOLUME = 0.82`, and the
quantised output's peak is 26868 = floor(0.82 * 32767), whose reconstruction
`26868 / 32767` is within one quantisation step (`1/32767`) of 0.82. -/
theorem C7_save_export (samples : List ℚ) :
    (maxAbs samples = 0 → save_pcm samples = List.replicate samples.length 0) ∧
    (0 < maxAbs samples →
      maxAbs (samples.map fun x => x / maxAbs samples * VOLUME) = VOLUME ∧
      maxAbs (save_pcm samples) = 26868 ∧
      |(26868 : ℚ) / 32767 - VOLUME| ≤ 1 / 32767) := by
  constructor
  · intro h0
    rw [save_pcm_eq, if_neg (by rw [h0]; exact lt_irrefl 0)]
    refine List.eq_replicate_iff.2 ⟨by simp, ?_⟩
    intro b hb
    obtain ⟨y, hy, rfl⟩ := List.mem_map.1 hb
    rw [maxAbs_eq_zero_mem h0 hy]
    norm_num [quant16, npClip, pyInt]
  · intro hp
    have hscaled : samples.map (fun x => x / maxAbs samples * VOLUME) =
        samples.map fun x => x * (VOLUME / maxAbs samples) := by
      apply List.map_congr_left
      intro x _
      ring
    have hVp : 0 ≤ VOLUME / maxAbs samples :=
      div_nonneg (by norm_num [VOLUME]) (le_of_lt hp)
    have hpeak : maxAbs (samples.map fun x => x / maxAbs samples * VOLUME) =
        VOLUME := by
      rw [hscaled, maxAbs_map_mul _ _ hVp]
      field_simp
    refine ⟨hpeak, ?_, ?_⟩
    · rw [save_pcm_eq, if_pos hp]
      apply le_antisymm
      · apply maxAbs_le (by norm_num)
        intro z hz
        obtain ⟨y, hy, rfl⟩ := List.mem_map.1 hz
        apply quant16_abs_le
        rw [← hpeak]
        exact le_maxAbs_of_mem hy
      · have hex : ∃ y ∈ samples.map fun x => x / maxAbs samples * VOLUME,
            |y| = maxAbs (samples.map fun x => x / maxAbs samples * VOLUME) :=
          exists_maxAbs (by rw [hpeak]; norm_num [VOLUME])
        obtain ⟨y, hy, hye⟩ := hex
        have h26 : |quant16 y| = 26868 := quant16_abs_peak y (hye.trans hpeak)
        rw [← h26]
        exact le_maxAbs_of_mem (List.mem_map_of_mem quant16 hy)
    · rw [abs_sub_comm, abs_of_nonneg (by norm_num [VOLUME])]
      norm_num [VOLUME]

/-- C7 witness: the exporter applied to the one-sample buffer `[1/2]`
(positive peak) and the branch facts instantiated there. -/
theorem C7_save_export_witness :
    (maxAbs [(1 : ℚ) / 2] = 0 →
      save_pcm [(1 : ℚ) / 2] = List.replicate (List.length [(1 : ℚ) / 2]) 0) ∧
    (0 < maxAbs [(1 : ℚ) / 2] →
      maxAbs (([(1 : ℚ) / 2]).map fun x => x / maxAbs [(1 : ℚ) / 2] * VOLUME) =
        VOLUME ∧
      maxAbs (save_pcm [(1 : ℚ) / 2]) = 26868 ∧
      |(26868 : ℚ) / 32767 - VOLUME| ≤ 1 / 32767) :=
  C7_save_export [(1 : ℚ) / 2]

/-- C6 theorem (amended): the primitives perform no explicit parameter
validation.  `sine` succeeds exactly when the computed sample count
`int(SR * dur)` is non-negative — in particular a negative frequency is
silently accepted — and `lowpass_fast` succeeds for every non-zero cutoff,
including negative ones (only `cutoff = 0` raises, as a bare
`ZeroDivisionError` from `1/(2 pi cutoff)`). -/
theorem C6_no_validation (f : ℝ) (dur : ℚ) (sig : List ℚ) (c : ℚ) (hc : c ≠ 0) :
    ((sine f dur).toOption.isSome = true ↔ 0 ≤ _n dur) ∧
    (lowpass_fast sig c).toOption.isSome = true := by
  constructor
  · unfold sine _const_phase npFull
    by_cases h : _n dur < 0
    · rw [if_pos h]
      simp only [Except.map, Except.toOption, Option.isSome_none]
      constructor
      · intro hcontra
        exact absurd hcontra (by simp)
      · intro h2
        omega
    · rw [if_neg h]
      simp only [Except.map, Except.toOption, Option.isSome_some, true_iff]
      omega
  · unfold lowpass_fast
    rw [if_neg hc]
    rfl

/-- C6 witness: the characterisation applied at frequency 440, duration
`1/441`, the one-sample buffer `[1]` and cutoff `-100`. -/
theorem C6_no_validation_witness :
    ((sine 440 (1 / 441)).toOption.isSome = true ↔ 0 ≤ _n (1 / 441)) ∧
    (lowpass_fast [1] (-100)).toOption.isSome = true :=
  C6_no_validation 440 (1 / 441) [1] (-100) (by norm_num)

/-- C6 counterexample: `sine(-440, 0.1)` silently returns a buffer (no error is
raised for the negative frequency), and `lowpass_fast` with the negative
cutoff `-100` silently returns a buffer as well, contradicting the claim
that such calls fail fast with a descriptive error. -/
theorem C6_negative_params_accepted_cex :
    (sine (-440) (1 / 10)).toOption.isSome = true ∧
    (lowpass_fast [1] (-100)).toOption.isSome = true := by
  constructor
  · have h : ¬ _n (1 / 10) < 0 := by
      rw [_n_of_nonneg (by norm_num)]
      norm_num
    unfold sine _const_phase npFull
    rw [if_neg h]
    rfl
  · have hc : (-100 : ℚ) ≠ 0 := by norm_num
    simp [lowpass_fast, hc, Except.toOption]

theorem fm_tone_eq (carrier_hz : ℝ) (dur : ℚ) ( mod_ratio mod_depth mod_decay : ℝ)
    (h : ¬ _n dur < 0) :
    fm_tone carrier_hz dur mod_ratio mod_depth mod_decay =
      Except.ok ((linspaceNE 0 (dur : ℝ) (_n dur).toNat).map fun ti =>
        Real.sin (2 * Real.pi * carrier_hz * ti +
          Real.sin (2 * Real.pi * (carrier_hz * mod_ratio) * ti) * mod_depth *
            Real.exp (-ti * (1 / ((dur : ℝ) * mod_decay + 1e-9))))) := by
  unfold fm_tone
  rw [if_neg h]

/-- C10 theorem: `fm_tone` is total for every non-negative duration and
`mod_decay`, including `mod_decay = 0`: the modulation-envelope denominator
`dur * mod_decay + 1e-9` is strictly positive (no division by zero), the
call returns a buffer of `_n(dur)` samples, and every sample is a sine
value, hence finite and bounded by 1 in absolute value. -/
theorem C10_fm_tone_total (carrier_hz : ℝ) (dur : ℚ)
    ( mod_ratio mod_depth mod_decay : ℝ)
    (hdur : 0 ≤ dur) (hdec : 0 ≤ mod_decay) :
    0 < (dur : ℝ) * mod_decay + 1e-9 ∧
    ∃ l, fm_tone carrier_hz dur mod_ratio mod_depth mod_decay = Except.ok l ∧
      l.length = (_n dur).toNat ∧ ∀ x ∈ l, |x| ≤ 1 := by
  have hpos : 0 < (dur : ℝ) * mod_decay + 1e-9 := by
    have h1 : 0 ≤ (dur : ℝ) * mod_decay :=
      mul_nonneg (by exact_mod_cast hdur) hdec
    have h2 : (0 : ℝ) < 1e-9 := by norm_num
    linarith
  have hn : ¬ _n dur < 0 := not_lt.2 (_n_nonneg hdur)
  refine ⟨hpos, _, fm_tone_eq carrier_hz dur mod_ratio mod_depth mod_decay hn, ?_, ?_⟩
  · simp [linspaceNE]
  · intro x hx
    obtain ⟨ti, _, rfl⟩ := List.mem_map.1 hx
    exact abs_le.2 ⟨Real.neg_one_le_sin _, Real.sin_le_one _⟩

/-- C10 witness: `fm_tone` at carrier 440 Hz, a one-sample duration, and the
degenerate `mod_decay = 0`. -/
theorem C10_fm_tone_total_witness :
    0 < ((1 / 441 : ℚ) : ℝ) * 0 + 1e-9 ∧
    ∃ l, fm_tone 440 (1 / 441) 2 (5 / 2) 0 = Except.ok l ∧
      l.length = (_n (1 / 441)).toNat ∧ ∀ x ∈ l, |x| ≤ 1 :=
  C10_fm_tone_total 440 (1 / 441) 2 (5 / 2) 0 (by norm_num) (by norm_num)

/-- C9 theorem (amended): the batch loop has no per-recipe exception handling:
if every write before `f` succeeds and writing `f` fails, the run stops at
`f` — the files written are exactly the ones before `f`, and no subsequent
manifest entry is generated or written. -/
theorem C9_batch_aborts (pre post : List String) (f : String)
    (writeOk : String → Bool)
    (hpre : ∀ g ∈ pre, writeOk g = true) (hf : writeOk f = false) :
    runBatch (pre ++ f :: post) writeOk = (pre, some f) := by
  induction pre with
  | nil => simp [runBatch, hf]
  | cons a pre ih =>
    have ha : writeOk a = true := hpre a (List.mem_cons_self a pre)
    simp [runBatch, ha, ih fun g hg => hpre g (List.mem_cons_of_mem a hg)]

/-- C9 witness: a three-entry manifest whose middle write fails: only the
first file is written and the third entry is never reached. -/
theorem C9_batch_aborts_witness :
    runBatch (["a.wav"] ++ "b.wav" :: ["c.wav"]) (fun s => s != "b.wav") =
      (["a.wav"], some "b.wav") :=
  C9_batch_aborts ["a.wav"] ["c.wav"] "b.wav" (fun s => s != "b.wav")
    (by intro g hg; fin_cases hg <;> rfl) (by rfl)

/-- C9 counterexample: in a two-recipe batch where writing the first file
fails (and the second would succeed), the second recipe's file is not
written — the failure aborts the rest of the batch instead of being
reported per-recipe. -/
theorem C9_batch_abort_cex :
    runBatch ["sfx_correct.wav", "sfx_wrong.wav"] (fun s => s == "sfx_wrong.wav") =
      ([], some "sfx_correct.wav") ∧
    "sfx_wrong.wav" ∉ (runBatch ["sfx_correct.wav", "sfx_wrong.wav"]
      (fun s => s == "sfx_wrong.wav")).1 := by
  constructor
  · rfl
  · intro hmem
    rw [show (runBatch ["sfx_correct.wav", "sfx_wrong.wav"]
      (fun s => s == "sfx_wrong.wav")).1 = [] from rfl] at hmem
    cases hmem

end MimiAudio
